import Mathlib

/-!
Verification development for the `random_mode_rotation` repository.

The Rust sources (`src/map_data.rs`, `src/map_scoring.rs`, `src/main.rs`) are
shallowly embedded below.  Conventions:

* `f64` arithmetic is modelled as exact arithmetic: the decimal constants of
  the source become the exact rationals denoted by their literals, the decayed
  accumulators are `ℚ`-valued (all fold operations are rational), and the
  final scoring formula (which uses `powf`) is `ℝ`-valued with `Real.rpow`.
  Floating-point rounding and NaN are outside this idealized semantics.
* `u16` fields become `ℕ` (the age accumulator is capped at 200 and can never
  overflow, the other fields are only compared).
* Rust `Map` equality is `id` equality and `MapGroup` equality is `gid`
  equality; the resolved group back-reference of a `Map` is modelled by a
  `gid` field.
* The `loop` of `pick_random_maps` is given fuel semantics: `pick_loop` runs
  at most `fuel` iterations of the loop body and returns `none` when the fuel
  is exhausted before the break condition is reached.  Termination of the
  loop is expressed as `∃ fuel, (pick_loop ...).isSome`.  The random source
  `random::<f64>()` becomes an explicit stream `us : ℕ → ℝ` of draws, one per
  loop iteration, each in `[0, 1)`.
* The `assert!(!scores.is_empty())` panic of `pick_random_maps` is modelled
  by the `Except.error ()` branch.
* Rust's stable `sort_by`/`sort_unstable_by` with the descending score
  comparator is modelled by `List.insertionSort` with the relation `wge`
  (ties are broken arbitrarily by both, and no claim depends on tie order).
-/

namespace RMR

/-- `Mode` from `src/map_data.rs` (declaration order gives the derived `Ord`). -/
inductive Mode where
  | TD
  | DM
  | Chaser
  | BR
  | Captain
  | Siege
deriving DecidableEq, Repr

/-- Index of a `Mode` in its declaration order; models the derived Rust `Ord`. -/
def modeIdx : Mode → ℕ
  | Mode.TD => 0
  | Mode.DM => 1
  | Mode.Chaser => 2
  | Mode.BR => 3
  | Mode.Captain => 4
  | Mode.Siege => 5

/-- Rust `Ord::min` on `Mode`. -/
def modeMin (a b : Mode) : Mode := if modeIdx a ≤ modeIdx b then a else b

/-- Rust `Ord::max` on `Mode`. -/
def modeMax (a b : Mode) : Mode := if modeIdx a ≤ modeIdx b then b else a

/-- `Mode::mode_discount` from `src/map_data.rs`: order the two modes with
`min`/`max`, then run the match arms in source order. -/
def Mode.mode_discount (a o : Mode) : ℚ :=
  match modeMin a o, modeMax a o with
  | Mode.Siege, Mode.Siege => 1
  | Mode.Siege, _ => 0.1
  | _, Mode.Siege => 0.1
  | Mode.Chaser, Mode.Chaser => 1
  | Mode.Chaser, _ => 0.1
  | _, Mode.Chaser => 0.1
  | Mode.TD, Mode.DM => 0.6
  | Mode.TD, Mode.BR => 0.5
  | Mode.TD, Mode.Captain => 0.5
  | Mode.DM, Mode.BR => 0.9
  | Mode.DM, Mode.Captain => 0.8
  | Mode.BR, Mode.Captain => 0.7
  | _, _ => 1

/-- `Map` from `src/map_data.rs`.  The `RefCell<Rc<MapGroup>>` back-reference
is modelled by the resolved group id `gid`; Rust `Map` equality is `id`
equality and group equality is `gid` equality. -/
structure Map where
  id : ℕ
  gid : ℕ
  mode : Mode
  players : ℕ
  nickname : String
  is_gag : Bool
  disabled : Bool
deriving DecidableEq, Repr

/-- `MapScoring` from `src/map_scoring.rs`. -/
structure MapScoring where
  map : Map
  age : ℕ
  cross_type_sibling_penalty : ℚ
  penalty : ℚ
deriving DecidableEq, Repr

/-- `MAX_AGE` from `src/map_scoring.rs`. -/
def MAX_AGE : ℕ := 200

/-- `ROUND_PENALTY` from `src/map_scoring.rs`. -/
def ROUND_PENALTY : ℚ := 1000

/-- `ROUND_DISCOUNT` from `src/map_scoring.rs` (the exact rational denoted by
the source literal; approximately the 64th root of 1/2). -/
def ROUND_DISCOUNT : ℚ := 1 / 1.0108892860517005

/-- `CROSS_TYPE_ROUND_DISCOUNT` from `src/map_scoring.rs` (approximately the
12th root of 1/2). -/
def CROSS_TYPE_ROUND_DISCOUNT : ℚ := 1 / 1.0594630943592953

/-- `PENALTY_NONLINEARITY` from `src/map_scoring.rs`. -/
def PENALTY_NONLINEARITY : ℝ := 1.4

/-- `AGE_POW` from `src/map_scoring.rs`. -/
def AGE_POW : ℝ := 0.6

/-- `MapScoring::map_played` from `src/map_scoring.rs`: one history entry
updates one candidate's scoring state. -/
def map_played (s : MapScoring) (other_map : Map) : MapScoring :=
  let penalty := s.penalty * ROUND_DISCOUNT
  let cross := s.cross_type_sibling_penalty * CROSS_TYPE_ROUND_DISCOUNT
  let age0 := min MAX_AGE (s.age + 1)
  let age := if other_map.id = s.map.id then 1 else age0
  if s.map.gid = other_map.gid then
    if s.map.mode = other_map.mode then
      { s with age := age, cross_type_sibling_penalty := cross,
               penalty := penalty + ROUND_PENALTY }
    else
      { s with age := age,
               cross_type_sibling_penalty :=
                 cross + Mode.mode_discount s.map.mode other_map.mode * ROUND_PENALTY,
               penalty := penalty }
  else
    { s with age := age, cross_type_sibling_penalty := cross, penalty := penalty }

/-- The per-candidate initial state built inside `get_appropriate_maps`. -/
def initScoring (m : Map) : MapScoring :=
  { map := m, age := MAX_AGE, cross_type_sibling_penalty := 1, penalty := 1 }

/-- The eligibility filter of `get_appropriate_maps` from `src/map_scoring.rs`:
`m.mode == mode && m.players >= players`. -/
def eligible (mode : Mode) (players : ℕ) (all_maps : List Map) : List Map :=
  all_maps.filter (fun m => decide (m.mode = mode ∧ players ≤ m.players))

/-- `get_appropriate_maps` from `src/map_scoring.rs`. -/
def get_appropriate_maps (mode : Mode) (players : ℕ) (all_maps : List Map) :
    List MapScoring :=
  (eligible mode players all_maps).map initScoring

/-- The history fold of `build_scores`: every candidate sees the log, oldest
entry first (`for s in &mut scores { for l in log { s.map_played(l) } }`). -/
def candidateStates (log : List Map) (mode : Mode) (players : ℕ)
    (all_maps : List Map) : List MapScoring :=
  (get_appropriate_maps mode players all_maps).map (fun s => log.foldl map_played s)

/-- Rust `f64::clamp lo hi`: `if x < lo { lo } else if x > hi { hi } else { x }`. -/
noncomputable def rclamp (lo hi x : ℝ) : ℝ :=
  if x < lo then lo else if hi < x then hi else x

/-- `MapScoring::final_score` from `src/map_scoring.rs`. -/
noncomputable def final_score (s : MapScoring) : ℝ × Map :=
  let c : ℝ := ((s.penalty + s.cross_type_sibling_penalty : ℚ) : ℝ)
  let inv : ℝ := 1000 / c ^ PENALTY_NONLINEARITY
  let weighted : ℝ := inv * (s.age : ℝ) ^ AGE_POW
  (rclamp 0.001 100000 weighted, s.map)

/-- The pre-normalization scores of `build_scores`. -/
noncomputable def rawScores (log : List Map) (mode : Mode) (players : ℕ)
    (all_maps : List Map) : List (ℝ × Map) :=
  (candidateStates log mode players all_maps).map final_score

/-- The pre-normalization score of one candidate map. -/
noncomputable def scoreOf (m : Map) (log : List Map) : ℝ :=
  (final_score (log.foldl map_played (initScoring m))).1

/-- The sum all scores are divided by in `normalize_scores`. -/
noncomputable def totalScore (log : List Map) (mode : Mode) (players : ℕ)
    (all_maps : List Map) : ℝ :=
  ((rawScores log mode players all_maps).map Prod.fst).sum

/-- `normalize_scores` from `src/map_scoring.rs`. -/
noncomputable def normalize_scores (scores : List (ℝ × Map)) : List (ℝ × Map) :=
  let sum : ℝ := (scores.map Prod.fst).sum
  scores.map (fun p => (p.1 / sum, p.2))

/-- The descending-by-score ordering used by `build_scores` and
`pick_random_maps` (`a.0.partial_cmp(&b.0).unwrap().reverse()`). -/
def wge (a b : ℝ × Map) : Prop := b.1 ≤ a.1

noncomputable instance : DecidableRel wge :=
  fun a b => inferInstanceAs (Decidable (b.1 ≤ a.1))

instance : IsTrans (ℝ × Map) wge := ⟨fun _ _ _ h1 h2 => le_trans h2 h1⟩

instance : IsTotal (ℝ × Map) wge := ⟨fun a b => le_total b.1 a.1⟩

/-- `build_scores` from `src/map_scoring.rs`: filter, fold the history,
finalize, normalize, sort descending. -/
noncomputable def build_scores (log : List Map) (mode : Mode) (players : ℕ)
    (all_maps : List Map) : List (ℝ × Map) :=
  List.insertionSort wge (normalize_scores (rawScores log mode players all_maps))

/-- The normalized weight of map `x` in the distribution produced by
`build_scores` (its raw score divided by the total). -/
noncomputable def weightOf (x : Map) (log : List Map) (mode : Mode)
    (players : ℕ) (all_maps : List Map) : ℝ :=
  scoreOf x log / totalScore log mode players all_maps

/-- Sum of the remaining weights, recomputed by the sampler at every draw. -/
noncomputable def wsum (l : List (ℝ × Map)) : ℝ := (l.map Prod.fst).sum

/-- The inner `for` of `pick_random_maps`: subtract each weight from the
running remainder, select the first candidate where the remainder is `≤ 0`,
remove it from the pool.  Returns the chosen pair and the remaining pool. -/
noncomputable def walk_pick (r : ℝ) :
    List (ℝ × Map) → Option ((ℝ × Map) × List (ℝ × Map))
  | [] => none
  | p :: rest =>
    if r - p.1 ≤ 0 then some (p, rest)
    else (walk_pick (r - p.1) rest).map (fun q => (q.1, p :: q.2))

/-- The `loop` of `pick_random_maps`, with `fuel` bounding the number of
iterations: draw `us t * sum`, walk the pool, append the selection, and stop
as soon as `k` maps have been drawn (`k = 3` in the source). -/
noncomputable def pick_loop (k : ℕ) (us : ℕ → ℝ) :
    ℕ → ℕ → List (ℝ × Map) → List (ℝ × Map) → Option (List (ℝ × Map))
  | 0, _, _, _ => none
  | fuel + 1, t, scores, acc =>
    match walk_pick (us t * wsum scores) scores with
    | some (q, rem) =>
      if k ≤ (acc ++ [q]).length then some (acc ++ [q])
      else pick_loop k us fuel (t + 1) rem (acc ++ [q])
    | none =>
      if k ≤ acc.length then some acc
      else pick_loop k us fuel (t + 1) scores acc

/-- The draw loop followed by the final descending sort
(`random_maps.sort_unstable_by(sort_score)`). -/
noncomputable def sample_without_replacement (k fuel : ℕ) (us : ℕ → ℝ)
    (scores : List (ℝ × Map)) : Option (List (ℝ × Map)) :=
  (pick_loop k us fuel 0 scores []).map (List.insertionSort wge)

/-- `pick_random_maps` from `src/main.rs`: build the scores, panic
(`Except.error ()`) if none remain, then draw 3 maps without replacement. -/
noncomputable def pick_random_maps (us : ℕ → ℝ) (fuel : ℕ) (log : List Map)
    (mode : Mode) (players : ℕ) (all_maps : List Map) :
    Except Unit (Option (List (ℝ × Map))) :=
  let scores := build_scores log mode players all_maps
  if scores.isEmpty then Except.error ()
  else Except.ok (sample_without_replacement 3 fuel us scores)

/-- Modelled from the spec: the listed distinct-category rows of Table A
(section 3 of the spec), as an unordered-pair lookup. -/
def tableA : Mode → Mode → Option ℚ
  | Mode.TD, Mode.DM => some 0.6
  | Mode.TD, Mode.BR => some 0.5
  | Mode.TD, Mode.Captain => some 0.5
  | Mode.DM, Mode.BR => some 0.9
  | Mode.DM, Mode.Captain => some 0.8
  | Mode.BR, Mode.Captain => some 0.7
  | _, _ => none

/-- Modelled from the spec: the symmetric Table A discount, with any pair
involving Siege (other than Siege-Siege) at 0.1, likewise for Chaser, the
listed pairs looked up in either order, and unspecified pairs at 1.0. -/
def specDiscount (a b : Mode) : ℚ :=
  if a ≠ b ∧ (a = Mode.Siege ∨ b = Mode.Siege) then 0.1
  else if a ≠ b ∧ (a = Mode.Chaser ∨ b = Mode.Chaser) then 0.1
  else
    match tableA a b with
    | some q => q
    | none =>
      match tableA b a with
      | some q => q
      | none => 1

/-- Modelled from the spec (claim C1): the per-entry update of a candidate's
scoring state, written following the claim's wording: discount both penalty
accumulators, bump the capped age, reset the age on the same item, then add
the (possibly cross-category discounted) round penalty on a group match. -/
def c1_step (s : MapScoring) (entry : Map) : MapScoring :=
  let s1 := { s with penalty := s.penalty * ROUND_DISCOUNT,
                     cross_type_sibling_penalty :=
                       s.cross_type_sibling_penalty * CROSS_TYPE_ROUND_DISCOUNT,
                     age := min 200 (s.age + 1) }
  let s2 := if entry.id = s1.map.id then { s1 with age := 1 } else s1
  if s2.map.gid = entry.gid then
    if s2.map.mode = entry.mode then
      { s2 with penalty := s2.penalty + 1000 }
    else
      { s2 with cross_type_sibling_penalty :=
          s2.cross_type_sibling_penalty + specDiscount s2.map.mode entry.mode * 1000 }
  else s2

/-- A concrete catalog map used by witnesses. -/
def mapA : Map := ⟨1, 1, Mode.TD, 16, "", false, false⟩

/-- A second concrete catalog map (distinct id and group). -/
def mapB : Map := ⟨2, 2, Mode.TD, 16, "", false, false⟩

/-- A third concrete catalog map (distinct id and group). -/
def mapC : Map := ⟨3, 3, Mode.TD, 16, "", false, false⟩

/-! ## Basic lemmas about the step function and the clamp -/

lemma discount_eq (a b : Mode) : Mode.mode_discount a b = specDiscount a b := by
  cases a <;> cases b <;> rfl

lemma map_played_eq_c1_step (s : MapScoring) (e : Map) :
    map_played s e = c1_step s e := by
  by_cases hid : e.id = s.map.id <;>
    by_cases hg : s.map.gid = e.gid <;>
      by_cases hm : s.map.mode = e.mode <;>
        simp [map_played, c1_step, hid, hg, hm, discount_eq, MAX_AGE, ROUND_PENALTY]

lemma rclamp_eq_max_min (lo hi x : ℝ) (h : lo ≤ hi) :
    rclamp lo hi x = max lo (min hi x) := by
  unfold rclamp
  by_cases h1 : x < lo
  · rw [if_pos h1, max_eq_left]
    exact le_of_lt (lt_of_le_of_lt (min_le_right hi x) h1)
  · rw [if_neg h1]
    by_cases h2 : hi < x
    · rw [if_pos h2, min_eq_left (le_of_lt h2), max_eq_right h]
    · rw [if_neg h2, min_eq_right (le_of_not_lt h2), max_eq_right (le_of_not_lt h1)]

lemma rclamp_lower (lo hi x : ℝ) (h : lo ≤ hi) : lo ≤ rclamp lo hi x := by
  rw [rclamp_eq_max_min lo hi x h]; exact le_max_left _ _

lemma rclamp_upper (lo hi x : ℝ) (h : lo ≤ hi) : rclamp lo hi x ≤ hi := by
  rw [rclamp_eq_max_min lo hi x h]
  exact max_le h (min_le_left _ _)

lemma rclamp_mono (lo hi : ℝ) {x y : ℝ} (h : lo ≤ hi) (hxy : x ≤ y) :
    rclamp lo hi x ≤ rclamp lo hi y := by
  rw [rclamp_eq_max_min lo hi x h, rclamp_eq_max_min lo hi y h]
  exact max_le_max le_rfl (min_le_min le_rfl hxy)

lemma rclamp_le_of_le (lo hi : ℝ) {x c : ℝ} (hlo : lo ≤ c) (hx : x ≤ c)
    (h : lo ≤ hi) : rclamp lo hi x ≤ c := by
  rw [rclamp_eq_max_min lo hi x h]
  exact max_le hlo (le_trans (min_le_right _ _) hx)

lemma le_rclamp_of_le (lo hi : ℝ) {x c : ℝ} (hhi : c ≤ hi) (hx : c ≤ x)
    (h : lo ≤ hi) : c ≤ rclamp lo hi x := by
  rw [rclamp_eq_max_min lo hi x h]
  exact le_trans (le_min hhi hx) (le_max_right _ _)

/-- The clamp in `final_score` bounds every produced score unconditionally. -/
lemma final_score_bounds (s : MapScoring) :
    0.001 ≤ (final_score s).1 ∧ (final_score s).1 ≤ 100000 := by
  unfold final_score
  refine ⟨rclamp_lower _ _ _ (by norm_num), rclamp_upper _ _ _ (by norm_num)⟩

lemma final_score_pos (s : MapScoring) : 0 < (final_score s).1 :=
  lt_of_lt_of_le (by norm_num) (final_score_bounds s).1

lemma final_score_map (s : MapScoring) : (final_score s).2 = s.map := rfl

lemma initScoring_map (m : Map) : (initScoring m).map = m := rfl

/-! ## Claim theorems C1, C2, C6 -/

/-- C1: each history entry updates a candidate's scoring state exactly as the
spec describes (discount `penalty` by `ROUND_DISCOUNT` and `cross_penalty` by
`CROSS_ROUND_DISCOUNT`, cap-increment the age, reset age to 1 on the same
item, then add 1000 to `penalty` on a same-group same-category entry or
`discount * 1000` per the symmetric Table A to `cross_penalty` on a
same-group different-category entry), and the history is folded oldest to
newest, independently for every candidate. -/
theorem c1_history_fold_step :
    (∀ (s : MapScoring) (e : Map), map_played s e = c1_step s e) ∧
    (∀ (log : List Map) (mode : Mode) (players : ℕ) (all_maps : List Map),
      candidateStates log mode players all_maps =
        (get_appropriate_maps mode players all_maps).map
          (fun s => log.foldl c1_step s)) := by
  have hstep : map_played = c1_step := by
    funext s e; exact map_played_eq_c1_step s e
  exact ⟨fun s e => map_played_eq_c1_step s e, fun log mode players all_maps => by
    rw [candidateStates, hstep]⟩

/-- C2: after the fold, the pre-normalization score of a candidate equals
`clamp(1000 / (penalty + cross_penalty)^1.4 * age^0.6, 0.001, 100000)`,
combining the two accumulators first, then raising to
`PENALTY_NONLINEARITY = 1.4` and inverting, then multiplying by
`age^(AGE_POW = 0.6)`, then clamping. -/
theorem c2_final_score_formula (s : MapScoring) :
    (final_score s).1 =
      max 0.001 (min 100000
        (1000 / ((s.penalty + s.cross_type_sibling_penalty : ℚ) : ℝ) ^ (1.4 : ℝ)
          * (s.age : ℝ) ^ (0.6 : ℝ))) ∧
    (final_score s).2 = s.map := by
  constructor
  · show rclamp 0.001 100000 _ = _
    rw [rclamp_eq_max_min _ _ _ (by norm_num)]
    rfl
  · rfl

/-- C6: every pre-normalization score produced by finalization is strictly
positive and lies in `[0.001, 100000]` (in this idealized real-number
semantics a score is always a well-defined finite real and never NaN). -/
theorem c6_scores_in_range (log : List Map) (mode : Mode) (players : ℕ)
    (all_maps : List Map) (p : ℝ × Map)
    (hp : p ∈ rawScores log mode players all_maps) :
    0 < p.1 ∧ 0.001 ≤ p.1 ∧ p.1 ≤ 100000 := by
  unfold rawScores at hp
  rcases List.mem_map.mp hp with ⟨s, _, rfl⟩
  exact ⟨final_score_pos s, (final_score_bounds s).1, (final_score_bounds s).2⟩

/-- Witness for C6 at a concrete input: the singleton catalog `[mapA]` with
the empty history. -/
theorem c6_scores_in_range_witness :
    0 < (final_score (initScoring mapA)).1 ∧
    0.001 ≤ (final_score (initScoring mapA)).1 ∧
    (final_score (initScoring mapA)).1 ≤ 100000 := by
  have hmem : final_score (initScoring mapA) ∈ rawScores [] Mode.TD 16 [mapA] := by
    have : eligible Mode.TD 16 [mapA] = [mapA] := by decide
    simp [rawScores, candidateStates, get_appropriate_maps, this]
  exact c6_scores_in_range [] Mode.TD 16 [mapA] _ hmem

/-! ## Invariants of the scoring fold -/

lemma ROUND_DISCOUNT_pos : 0 < ROUND_DISCOUNT := by norm_num [ROUND_DISCOUNT]

lemma ROUND_DISCOUNT_le_one : ROUND_DISCOUNT ≤ 1 := by norm_num [ROUND_DISCOUNT]

lemma CROSS_DISCOUNT_pos : 0 < CROSS_TYPE_ROUND_DISCOUNT := by
  norm_num [CROSS_TYPE_ROUND_DISCOUNT]

lemma CROSS_DISCOUNT_le_one : CROSS_TYPE_ROUND_DISCOUNT ≤ 1 := by
  norm_num [CROSS_TYPE_ROUND_DISCOUNT]

lemma mode_discount_nonneg (a b : Mode) : 0 ≤ Mode.mode_discount a b := by
  cases a <;> cases b <;>
    norm_num [Mode.mode_discount, modeMin, modeMax, modeIdx]

lemma map_played_map (s : MapScoring) (e : Map) : (map_played s e).map = s.map := by
  unfold map_played
  split_ifs <;> rfl

lemma foldl_map_played_map (log : List Map) (s : MapScoring) :
    (log.foldl map_played s).map = s.map := by
  induction log generalizing s with
  | nil => rfl
  | cons e rest ih => rw [List.foldl_cons, ih, map_played_map]

lemma map_played_pos (s : MapScoring) (e : Map)
    (hp : 0 < s.penalty) (hc : 0 < s.cross_type_sibling_penalty) :
    0 < (map_played s e).penalty ∧ 0 < (map_played s e).cross_type_sibling_penalty := by
  have hpd : 0 < s.penalty * ROUND_DISCOUNT := mul_pos hp ROUND_DISCOUNT_pos
  have hcd : 0 < s.cross_type_sibling_penalty * CROSS_TYPE_ROUND_DISCOUNT :=
    mul_pos hc CROSS_DISCOUNT_pos
  have hdisc : 0 ≤ Mode.mode_discount s.map.mode e.mode * ROUND_PENALTY :=
    mul_nonneg (mode_discount_nonneg _ _) (by norm_num [ROUND_PENALTY])
  have hpen : 0 < s.penalty * ROUND_DISCOUNT + ROUND_PENALTY :=
    add_pos hpd (by norm_num [ROUND_PENALTY])
  have hcross : 0 < s.cross_type_sibling_penalty * CROSS_TYPE_ROUND_DISCOUNT +
      Mode.mode_discount s.map.mode e.mode * ROUND_PENALTY :=
    add_pos_of_pos_of_nonneg hcd hdisc
  unfold map_played
  split_ifs <;> exact ⟨by assumption, by assumption⟩

lemma foldl_map_played_pos (log : List Map) (s : MapScoring)
    (hp : 0 < s.penalty) (hc : 0 < s.cross_type_sibling_penalty) :
    0 < (log.foldl map_played s).penalty ∧
    0 < (log.foldl map_played s).cross_type_sibling_penalty := by
  induction log generalizing s with
  | nil => exact ⟨hp, hc⟩
  | cons e rest ih =>
    rw [List.foldl_cons]
    exact ih _ (map_played_pos s e hp hc).1 (map_played_pos s e hp hc).2

lemma map_played_age_bounds (s : MapScoring) (e : Map) :
    1 ≤ (map_played s e).age ∧ (map_played s e).age ≤ 200 := by
  unfold map_played MAX_AGE
  split_ifs <;> simp

lemma foldl_age_bounds (log : List Map) (s : MapScoring)
    (h1 : 1 ≤ s.age) (h2 : s.age ≤ 200) :
    1 ≤ (log.foldl map_played s).age ∧ (log.foldl map_played s).age ≤ 200 := by
  induction log generalizing s with
  | nil => exact ⟨h1, h2⟩
  | cons e rest ih =>
    rw [List.foldl_cons]
    exact ih _ (map_played_age_bounds s e).1 (map_played_age_bounds s e).2

/-! ## Normalization lemmas -/

lemma sum_map_div (l : List ℝ) (S : ℝ) :
    (l.map (fun x => x / S)).sum = l.sum / S := by
  induction l with
  | nil => simp
  | cons a rest ih => simp [ih, add_div]

lemma normalize_fst_sum (l : List (ℝ × Map)) (h : (l.map Prod.fst).sum ≠ 0) :
    ((normalize_scores l).map Prod.fst).sum = 1 := by
  unfold normalize_scores
  rw [List.map_map]
  have : (Prod.fst ∘ fun p : ℝ × Map => (p.1 / (l.map Prod.fst).sum, p.2)) =
      (fun p : ℝ × Map => p.1 / (l.map Prod.fst).sum) := rfl
  rw [this]
  have hcomp : (l.map fun p : ℝ × Map => p.1 / (l.map Prod.fst).sum) =
      ((l.map Prod.fst).map (fun x => x / (l.map Prod.fst).sum)) := by
    rw [List.map_map]; rfl
  rw [hcomp, sum_map_div, div_self h]

lemma rawScores_pos (log : List Map) (mode : Mode) (players : ℕ)
    (all_maps : List Map) (x : ℝ)
    (hx : x ∈ (rawScores log mode players all_maps).map Prod.fst) : 0 < x := by
  rcases List.mem_map.mp hx with ⟨p, hp, rfl⟩
  unfold rawScores at hp
  rcases List.mem_map.mp hp with ⟨s, _, rfl⟩
  exact final_score_pos s

lemma totalScore_pos (log : List Map) (mode : Mode) (players : ℕ)
    (all_maps : List Map)
    (h : get_appropriate_maps mode players all_maps ≠ []) :
    0 < totalScore log mode players all_maps := by
  unfold totalScore
  apply List.sum_pos
  · exact fun x hx => rawScores_pos log mode players all_maps x hx
  · simp only [ne_eq, List.map_eq_nil_iff, rawScores, candidateStates]
    simpa using h

/-! ## Claim theorems C3, C8, C10 -/

/-- C3: for a non-empty eligible candidate set the output of `build_scores`
is the score-divided-by-total distribution: the returned weights sum to
exactly 1 (hence within `1e-9` of 1.0), and the returned sequence is sorted
descending by weight. -/
theorem c3_normalized_and_sorted (log : List Map) (mode : Mode) (players : ℕ)
    (all_maps : List Map)
    (h : get_appropriate_maps mode players all_maps ≠ []) :
    ((build_scores log mode players all_maps).map Prod.fst).sum = 1 ∧
    List.Sorted wge (build_scores log mode players all_maps) := by
  constructor
  · have hperm :
        List.Perm (build_scores log mode players all_maps)
          (normalize_scores (rawScores log mode players all_maps)) :=
      List.perm_insertionSort wge _
    rw [(hperm.map Prod.fst).sum_eq]
    exact normalize_fst_sum _ (ne_of_gt (totalScore_pos log mode players all_maps h))
  · exact List.sorted_insertionSort wge _

/-- Witness for C3: the singleton catalog `[mapA]` with the empty history. -/
theorem c3_normalized_and_sorted_witness :
    ((build_scores [] Mode.TD 16 [mapA]).map Prod.fst).sum = 1 ∧
    List.Sorted wge (build_scores [] Mode.TD 16 [mapA]) :=
  c3_normalized_and_sorted [] Mode.TD 16 [mapA] (by decide)

/-- C8: a map is a scoring candidate iff its mode equals the requested mode
and its capacity is at least the requested minimum; no other field plays a
role, and the candidates are exactly the filtered catalog (each paired with
the initial scoring state). -/
theorem c8_eligibility_filter (mode : Mode) (players : ℕ) (all_maps : List Map) :
    (get_appropriate_maps mode players all_maps).map MapScoring.map =
      eligible mode players all_maps ∧
    (∀ m : Map, m ∈ eligible mode players all_maps ↔
      (m ∈ all_maps ∧ m.mode = mode ∧ players ≤ m.players)) := by
  constructor
  · unfold get_appropriate_maps
    rw [List.map_map]
    exact List.map_id _
  · intro m
    simp [eligible, List.mem_filter, and_assoc]

/-- C10: every candidate's age stays in `[1, 200]` through the history fold
(it starts at `MAX_AGE = 200`, each step cap-increments it or resets it
to 1). -/
theorem c10_age_invariant (log : List Map) (mode : Mode) (players : ℕ)
    (all_maps : List Map) (st : MapScoring)
    (hst : st ∈ candidateStates log mode players all_maps) :
    1 ≤ st.age ∧ st.age ≤ 200 := by
  unfold candidateStates at hst
  rcases List.mem_map.mp hst with ⟨s0, hs0, rfl⟩
  unfold get_appropriate_maps at hs0
  rcases List.mem_map.mp hs0 with ⟨m, _, rfl⟩
  exact foldl_age_bounds log (initScoring m) (by norm_num [initScoring, MAX_AGE])
    (by norm_num [initScoring, MAX_AGE])

/-- Witness for C10: the singleton catalog `[mapA]` and the one-entry
history `[mapA]`. -/
theorem c10_age_invariant_witness :
    1 ≤ ([mapA].foldl map_played (initScoring mapA)).age ∧
    ([mapA].foldl map_played (initScoring mapA)).age ≤ 200 := by
  have hmem : [mapA].foldl map_played (initScoring mapA) ∈
      candidateStates [mapA] Mode.TD 16 [mapA] := by
    have : eligible Mode.TD 16 [mapA] = [mapA] := by decide
    simp [candidateStates, get_appropriate_maps, this]
  exact c10_age_invariant [mapA] Mode.TD 16 [mapA] _ hmem

/-! ## The empty-candidate assertion (C5) -/

lemma build_scores_nil (log : List Map) (mode : Mode) (players : ℕ)
    (all_maps : List Map)
    (h : get_appropriate_maps mode players all_maps = []) :
    build_scores log mode players all_maps = [] := by
  simp [build_scores, normalize_scores, rawScores, candidateStates, h]

/-- C5: whenever the eligibility filter leaves no candidates, the
recommendation path fails loudly (the `assert!(!scores.is_empty())` panic,
modelled as `Except.error ()`) instead of returning an empty distribution. -/
theorem c5_empty_candidates_abort (us : ℕ → ℝ) (fuel : ℕ) (log : List Map)
    (mode : Mode) (players : ℕ) (all_maps : List Map)
    (h : get_appropriate_maps mode players all_maps = []) :
    pick_random_maps us fuel log mode players all_maps = Except.error () := by
  simp [pick_random_maps, build_scores_nil log mode players all_maps h]

/-- Witness for C5: the empty catalog leaves no candidates. -/
theorem c5_empty_candidates_abort_witness :
    pick_random_maps (fun _ => 0) 0 [] Mode.TD 16 [] = Except.error () :=
  c5_empty_candidates_abort (fun _ => 0) 0 [] Mode.TD 16 [] (by decide)

/-! ## Sampler lemmas -/

lemma wsum_cons (p : ℝ × Map) (rest : List (ℝ × Map)) :
    wsum (p :: rest) = p.1 + wsum rest := by simp [wsum]

lemma walk_pick_perm :
    ∀ (l : List (ℝ × Map)) (r : ℝ) (q : ℝ × Map) (rem : List (ℝ × Map)),
      walk_pick r l = some (q, rem) → List.Perm (q :: rem) l := by
  intro l
  induction l with
  | nil => intro r q rem h; simp [walk_pick] at h
  | cons p rest ih =>
    intro r q rem h
    by_cases hr : r - p.1 ≤ 0
    · simp only [walk_pick, if_pos hr, Option.some.injEq, Prod.mk.injEq] at h
      obtain ⟨rfl, rfl⟩ := h
      exact List.Perm.refl _
    · simp only [walk_pick, if_neg hr] at h
      cases hw : walk_pick (r - p.1) rest with
      | none => rw [hw] at h; simp at h
      | some pr =>
        obtain ⟨q', rem'⟩ := pr
        rw [hw] at h
        simp only [Option.map_some', Option.some.injEq, Prod.mk.injEq] at h
        obtain ⟨rfl, rfl⟩ := h
        exact (List.Perm.swap p q' rem').trans ((ih (r - p.1) q' rem' hw).cons p)

lemma walk_pick_exists :
    ∀ (l : List (ℝ × Map)) (r : ℝ), 0 ≤ r → r < wsum l →
      ∃ q rem, walk_pick r l = some (q, rem) := by
  intro l
  induction l with
  | nil =>
    intro r h0 hlt
    rw [show wsum [] = 0 from rfl] at hlt
    linarith
  | cons p rest ih =>
    intro r h0 hlt
    by_cases hr : r - p.1 ≤ 0
    · exact ⟨p, rest, by simp [walk_pick, hr]⟩
    · have h0' : 0 ≤ r - p.1 := le_of_lt (sub_pos.mpr (by linarith [not_le.mp hr]))
      have hlt' : r - p.1 < wsum rest := by
        rw [wsum_cons] at hlt; linarith
      obtain ⟨q, rem, hw⟩ := ih (r - p.1) h0' hlt'
      exact ⟨q, p :: rem, by simp [walk_pick, hr, hw]⟩

lemma pick_loop_stuck (k : ℕ) (us : ℕ → ℝ) :
    ∀ (fuel t : ℕ) (acc : List (ℝ × Map)), acc.length < k →
      pick_loop k us fuel t [] acc = none := by
  intro fuel
  induction fuel with
  | zero => intro t acc _; rfl
  | succ fuel ih =>
    intro t acc hacc
    have hwp : walk_pick (us t * wsum []) [] = none := rfl
    simp only [pick_loop, hwp]
    rw [if_neg (Nat.not_le.mpr hacc)]
    exact ih (t + 1) acc hacc

lemma pick_loop_ok (k : ℕ) (us : ℕ → ℝ) (hu : ∀ i, 0 ≤ us i ∧ us i < 1) :
    ∀ (fuel t : ℕ) (scores acc : List (ℝ × Map)),
      (∀ p ∈ scores, 0 < p.1) →
      k ≤ acc.length + scores.length →
      acc.length < k →
      k ≤ fuel + acc.length →
      ∃ res rem, pick_loop k us fuel t scores acc = some res ∧
        res.length = k ∧ List.Perm (res ++ rem) (acc ++ scores) := by
  intro fuel
  induction fuel with
  | zero => intro t scores acc _ _ hacc hfuel; omega
  | succ fuel ih =>
    intro t scores acc hw hlen hacc hfuel
    have hscne : scores ≠ [] := by
      intro hnil
      rw [hnil] at hlen
      simp at hlen
      omega
    have hsum : 0 < wsum scores := by
      apply List.sum_pos
      · intro x hx
        rcases List.mem_map.mp hx with ⟨p, hp, rfl⟩
        exact hw p hp
      · simpa using hscne
    have hr0 : 0 ≤ us t * wsum scores := mul_nonneg (hu t).1 (le_of_lt hsum)
    have hrlt : us t * wsum scores < wsum scores :=
      mul_lt_of_lt_one_left hsum (hu t).2
    obtain ⟨q, rem, hwp⟩ := walk_pick_exists scores _ hr0 hrlt
    have hperm : List.Perm (q :: rem) scores := walk_pick_perm scores _ q rem hwp
    have happ : (acc ++ [q]) ++ rem = acc ++ (q :: rem) := by
      simp [List.append_assoc]
    by_cases hk : k ≤ (acc ++ [q]).length
    · refine ⟨acc ++ [q], rem, ?_, ?_, ?_⟩
      · simp only [pick_loop, hwp]
        rw [if_pos hk]
      · simp only [List.length_append, List.length_singleton] at hk ⊢
        omega
      · rw [happ]
        exact hperm.append_left acc
    · have hlen' : k ≤ (acc ++ [q]).length + rem.length := by
        have := hperm.length_eq
        simp only [List.length_cons] at this
        simp only [List.length_append, List.length_singleton]
        omega
      have hacc' : (acc ++ [q]).length < k := Nat.not_le.mp hk
      have hfuel' : k ≤ fuel + (acc ++ [q]).length := by
        simp only [List.length_append, List.length_singleton]
        omega
      have hw' : ∀ p ∈ rem, 0 < p.1 := fun p hp =>
        hw p (hperm.mem_iff.mp (List.mem_cons_of_mem q hp))
      obtain ⟨res, rem2, heq, hlenres, hperm2⟩ :=
        ih (t + 1) rem (acc ++ [q]) hw' hlen' hacc' hfuel'
      refine ⟨res, rem2, ?_, hlenres, ?_⟩
      · simp only [pick_loop, hwp]
        rw [if_neg hk]
        exact heq
      · refine hperm2.trans ?_
        rw [happ]
        exact hperm.append_left acc

/-! ## Claim theorems C4, C9 -/

/-- C4: a sampler call with `0 < k ≤ n` on a positive-weight distribution
with distinct ids returns exactly `k` pairwise-distinct maps, each paired
with the weight it held in the original distribution (the recorded pairs are
members of the input list, never renormalized), sorted descending by that
recorded weight.  The source fixes `k = 3`. -/
theorem c4_without_replacement (k : ℕ) (us : ℕ → ℝ) (scores : List (ℝ × Map))
    (hk0 : 0 < k) (hk : k ≤ scores.length)
    (hw : ∀ p ∈ scores, 0 < p.1)
    (hnd : (scores.map (fun p => p.2.id)).Nodup)
    (hu : ∀ i, 0 ≤ us i ∧ us i < 1) :
    ∃ res, sample_without_replacement k k us scores = some res ∧
      res.length = k ∧
      (res.map (fun p => p.2.id)).Nodup ∧
      (∀ p ∈ res, p ∈ scores) ∧
      List.Sorted wge res := by
  obtain ⟨res0, rem, heq, hlen, hperm⟩ :=
    pick_loop_ok k us hu k 0 scores [] hw (by simpa using hk) (by simpa using hk0)
      (by omega)
  rw [List.nil_append] at hperm
  have hsortperm : List.Perm (List.insertionSort wge res0) res0 :=
    List.perm_insertionSort wge res0
  refine ⟨List.insertionSort wge res0, ?_, ?_, ?_, ?_,
    List.sorted_insertionSort wge res0⟩
  · simp [sample_without_replacement, heq]
  · rw [hsortperm.length_eq, hlen]
  · have hnd2 : ((res0 ++ rem).map (fun p => p.2.id)).Nodup :=
      ((hperm.map (fun p : ℝ × Map => p.2.id)).nodup_iff).mpr hnd
    rw [List.map_append] at hnd2
    exact (hsortperm.map (fun p : ℝ × Map => p.2.id)).nodup_iff.mpr
      hnd2.of_append_left
  · intro p hp
    have hp0 : p ∈ res0 := hsortperm.mem_iff.mp hp
    exact hperm.mem_iff.mp (List.mem_append_left rem hp0)

/-- Witness for C4: three candidates with weights 1/2, 1/3, 1/6 and the
all-zero random stream. -/
theorem c4_without_replacement_witness :
    ∃ res, sample_without_replacement 3 3 (fun _ => 0)
        [(1/2, mapA), (1/3, mapB), (1/6, mapC)] = some res ∧
      res.length = 3 ∧
      (res.map (fun p => p.2.id)).Nodup ∧
      (∀ p ∈ res, p ∈ [((1:ℝ)/2, mapA), (1/3, mapB), (1/6, mapC)]) ∧
      List.Sorted wge res := by
  apply c4_without_replacement 3 (fun _ => 0)
    [(1/2, mapA), (1/3, mapB), (1/6, mapC)]
  · norm_num
  · norm_num
  · intro p hp
    simp only [List.mem_cons, List.not_mem_nil, or_false] at hp
    rcases hp with rfl | rfl | rfl <;> norm_num
  · simp [mapA, mapB, mapC]
  · intro i; norm_num

lemma build_scores_length (log : List Map) (mode : Mode) (players : ℕ)
    (all_maps : List Map) :
    (build_scores log mode players all_maps).length =
      (get_appropriate_maps mode players all_maps).length := by
  simp [build_scores, normalize_scores, rawScores, candidateStates,
    List.length_insertionSort]

lemma build_scores_pos (log : List Map) (mode : Mode) (players : ℕ)
    (all_maps : List Map)
    (h : get_appropriate_maps mode players all_maps ≠ []) :
    ∀ p ∈ build_scores log mode players all_maps, 0 < p.1 := by
  intro p hp
  have hp2 : p ∈ normalize_scores (rawScores log mode players all_maps) :=
    (List.perm_insertionSort wge _).mem_iff.mp hp
  unfold normalize_scores at hp2
  rcases List.mem_map.mp hp2 with ⟨q, hq, rfl⟩
  have hqpos : 0 < q.1 :=
    rawScores_pos log mode players all_maps q.1
      (List.mem_map.mpr ⟨q, hq, rfl⟩)
  exact div_pos hqpos (totalScore_pos log mode players all_maps h)

/-- C9 (amended): a recommendation computation terminates whenever the
eligible candidate set has at least 3 members (the fixed sample size) and
the random draws lie in `[0, 1)`: some iteration bound makes the draw loop
return. -/
theorem c9_terminates_amended (us : ℕ → ℝ) (log : List Map) (mode : Mode)
    (players : ℕ) (all_maps : List Map)
    (hu : ∀ i, 0 ≤ us i ∧ us i < 1)
    (h3 : 3 ≤ (build_scores log mode players all_maps).length) :
    ∃ fuel res, pick_random_maps us fuel log mode players all_maps =
      Except.ok (some res) := by
  have hne : get_appropriate_maps mode players all_maps ≠ [] := by
    intro hnil
    rw [build_scores_length, hnil] at h3
    simp at h3
  have hw := build_scores_pos log mode players all_maps hne
  obtain ⟨res0, rem, heq, hlen, hperm⟩ :=
    pick_loop_ok 3 us hu 3 0 (build_scores log mode players all_maps) []
      hw (by simpa using h3) (by simp) (by omega)
  refine ⟨3, List.insertionSort wge res0, ?_⟩
  have hnotempty : (build_scores log mode players all_maps).isEmpty = false := by
    rw [List.isEmpty_eq_false]
    intro hnil
    rw [hnil] at h3
    simp at h3
  simp only [pick_random_maps, hnotempty, Bool.false_eq_true, if_false,
    sample_without_replacement, heq, Option.map_some']

/-- Witness for the amended C9: the three-map catalog with the empty
history. -/
theorem c9_terminates_amended_witness :
    ∃ fuel res, pick_random_maps (fun _ => 0) fuel [] Mode.TD 16
      [mapA, mapB, mapC] = Except.ok (some res) := by
  apply c9_terminates_amended (fun _ => 0) [] Mode.TD 16 [mapA, mapB, mapC]
  · intro i; norm_num
  · rw [build_scores_length]
    decide

lemma pick_loop_single_none (fuel : ℕ) :
    ∀ (t : ℕ) (w : ℝ) (m : Map) (acc : List (ℝ × Map)), 0 ≤ w →
      acc.length + 1 < 3 →
      pick_loop 3 (fun _ => 0) fuel t [(w, m)] acc = none := by
  induction fuel with
  | zero => intro t w m acc _ _; rfl
  | succ fuel _ =>
    intro t w m acc hw hacc
    have hwp : walk_pick ((fun _ : ℕ => (0:ℝ)) t * wsum [(w, m)]) [(w, m)] =
        some ((w, m), []) := by
      simp [walk_pick]
      linarith
    simp only [pick_loop, hwp]
    rw [if_neg (by simp; omega)]
    exact pick_loop_stuck 3 (fun _ => 0) fuel (t + 1) (acc ++ [(w, m)])
      (by simp; omega)

/-- C9 (counterexample): with a single eligible candidate the draw loop of
`pick_random_maps` never terminates — no iteration bound suffices, on the
concrete catalog `[mapA]` with the empty history and the all-zero random
stream. -/
theorem c9_counterexample :
    ¬ ∃ (fuel : ℕ) (res : List (ℝ × Map)),
        pick_random_maps (fun _ => 0) fuel [] Mode.TD 16 [mapA] =
          Except.ok (some res) := by
  rintro ⟨fuel, res, h⟩
  have helig : eligible Mode.TD 16 [mapA] = [mapA] := by decide
  set v : ℝ := (final_score (initScoring mapA)).1 with hv
  have hfs : final_score (initScoring mapA) = (v, mapA) := by
    rw [hv]
    exact Prod.ext rfl (final_score_map _)
  have hraw : rawScores [] Mode.TD 16 [mapA] = [(v, mapA)] := by
    simp [rawScores, candidateStates, get_appropriate_maps, helig, hfs]
  have hvpos : 0 < v := final_score_pos _
  have hbuild : build_scores [] Mode.TD 16 [mapA] = [(v / v, mapA)] := by
    simp [build_scores, hraw, normalize_scores, List.insertionSort,
      List.orderedInsert, final_score_map, initScoring_map]
  have hloop : pick_loop 3 (fun _ => 0) fuel 0 [(v / v, mapA)] [] = none :=
    pick_loop_single_none fuel 0 (v / v) mapA []
      (div_nonneg (le_of_lt hvpos) (le_of_lt hvpos)) (by simp)
  rw [pick_random_maps] at h
  simp only [hbuild, List.isEmpty_cons, if_false,
    sample_without_replacement, hloop, Option.map_none'] at h
  exact Option.noConfusion (Except.ok.inj h)

/-! ## Bounds on the finalization formula (for C7) -/

lemma scoreOf_pos (m : Map) (log : List Map) : 0 < scoreOf m log :=
  final_score_pos _

lemma scoreOf_lb (m : Map) (log : List Map) : 0.001 ≤ scoreOf m log :=
  (final_score_bounds _).1

lemma scoreOf_eq (m : Map) (log : List Map) :
    scoreOf m log = rclamp 0.001 100000
      (1000 / (((log.foldl map_played (initScoring m)).penalty +
          (log.foldl map_played (initScoring m)).cross_type_sibling_penalty : ℚ) : ℝ)
            ^ PENALTY_NONLINEARITY
        * ((log.foldl map_played (initScoring m)).age : ℝ) ^ AGE_POW) := rfl

lemma totalScore_eq (log : List Map) (mode : Mode) (players : ℕ)
    (all_maps : List Map) :
    totalScore log mode players all_maps =
      ((eligible mode players all_maps).map (fun m => scoreOf m log)).sum := by
  unfold totalScore rawScores candidateStates get_appropriate_maps scoreOf
  rw [List.map_map, List.map_map, List.map_map]
  rfl

lemma weightOf_eq (x : Map) (log : List Map) (mode : Mode) (players : ℕ)
    (all_maps : List Map) :
    weightOf x log mode players all_maps =
      scoreOf x log / totalScore log mode players all_maps := rfl

lemma age_rpow_one_le (n : ℕ) (h : 1 ≤ n) : (1:ℝ) ≤ (n:ℝ) ^ AGE_POW := by
  calc (1:ℝ) = (1:ℝ) ^ AGE_POW := (Real.one_rpow _).symm
  _ ≤ (n:ℝ) ^ AGE_POW :=
      Real.rpow_le_rpow (by norm_num) (by exact_mod_cast h) (by norm_num [AGE_POW])

lemma final_upper_of_big (cb : ℝ) (hcb : 1000 ≤ cb) :
    rclamp 0.001 100000
      (1000 / cb ^ PENALTY_NONLINEARITY * (((1:ℕ)):ℝ) ^ AGE_POW) ≤ 1 := by
  have h1 : (((1:ℕ)):ℝ) ^ AGE_POW = 1 := by
    rw [Nat.cast_one, Real.one_rpow]
  have hpow : (1000:ℝ) ≤ cb ^ PENALTY_NONLINEARITY := by
    have e1 : (1000:ℝ) ^ (1:ℝ) ≤ (1000:ℝ) ^ PENALTY_NONLINEARITY := by
      apply (Real.rpow_le_rpow_left_iff (by norm_num : (1:ℝ) < 1000)).mpr
      norm_num [PENALTY_NONLINEARITY]
    have e2 : (1000:ℝ) ^ PENALTY_NONLINEARITY ≤ cb ^ PENALTY_NONLINEARITY :=
      Real.rpow_le_rpow (by norm_num) hcb (by norm_num [PENALTY_NONLINEARITY])
    rw [Real.rpow_one] at e1
    linarith
  have hdiv : 1000 / cb ^ PENALTY_NONLINEARITY ≤ 1 := by
    rw [div_le_one (by linarith : (0:ℝ) < cb ^ PENALTY_NONLINEARITY)]
    exact hpow
  rw [h1, mul_one]
  exact rclamp_le_of_le _ _ (by norm_num) hdiv (by norm_num)

lemma final_lower_of_small (cb : ℝ) (h0 : 0 < cb) (h2 : cb ≤ 2) :
    (250:ℝ) ≤ rclamp 0.001 100000
      (1000 / cb ^ PENALTY_NONLINEARITY * (((200:ℕ)):ℝ) ^ AGE_POW) := by
  have hage : (1:ℝ) ≤ (((200:ℕ)):ℝ) ^ AGE_POW := age_rpow_one_le 200 (by norm_num)
  have hpow : cb ^ PENALTY_NONLINEARITY ≤ 4 := by
    have step1 : cb ^ PENALTY_NONLINEARITY ≤ (2:ℝ) ^ PENALTY_NONLINEARITY :=
      Real.rpow_le_rpow (le_of_lt h0) h2 (by norm_num [PENALTY_NONLINEARITY])
    have step2 : (2:ℝ) ^ PENALTY_NONLINEARITY ≤ (2:ℝ) ^ ((2:ℕ):ℝ) := by
      apply (Real.rpow_le_rpow_left_iff (by norm_num : (1:ℝ) < 2)).mpr
      push_cast
      norm_num [PENALTY_NONLINEARITY]
    have step3 : (2:ℝ) ^ ((2:ℕ):ℝ) = 4 := by
      rw [Real.rpow_natCast]
      norm_num
    linarith
  have hpos : 0 < cb ^ PENALTY_NONLINEARITY := Real.rpow_pos_of_pos h0 _
  have hdiv : (250:ℝ) ≤ 1000 / cb ^ PENALTY_NONLINEARITY := by
    rw [le_div_iff₀ hpos]
    nlinarith
  have hval : (250:ℝ) ≤ 1000 / cb ^ PENALTY_NONLINEARITY *
      (((200:ℕ)):ℝ) ^ AGE_POW := by
    calc (250:ℝ) = 250 * 1 := by ring
    _ ≤ 1000 / cb ^ PENALTY_NONLINEARITY * (((200:ℕ)):ℝ) ^ AGE_POW :=
        mul_le_mul hdiv hage (by norm_num) (by linarith)
  exact le_rclamp_of_le _ _ (by norm_num) hval (by norm_num)

lemma final_mono_cb_age (cb cb' : ℝ) (a a' : ℕ) (h0 : 0 < cb') (hle : cb' ≤ cb)
    (ha : a ≤ a') :
    rclamp 0.001 100000 (1000 / cb ^ PENALTY_NONLINEARITY * (a:ℝ) ^ AGE_POW) ≤
      rclamp 0.001 100000
        (1000 / cb' ^ PENALTY_NONLINEARITY * ((a':ℝ)) ^ AGE_POW) := by
  apply rclamp_mono _ _ (by norm_num)
  have h1 : cb' ^ PENALTY_NONLINEARITY ≤ cb ^ PENALTY_NONLINEARITY :=
    Real.rpow_le_rpow (le_of_lt h0) hle (by norm_num [PENALTY_NONLINEARITY])
  have h2 : 0 < cb' ^ PENALTY_NONLINEARITY := Real.rpow_pos_of_pos h0 _
  have h3 : 1000 / cb ^ PENALTY_NONLINEARITY ≤ 1000 / cb' ^ PENALTY_NONLINEARITY :=
    div_le_div_of_nonneg_left (by norm_num) h2 h1
  have h4 : (a:ℝ) ^ AGE_POW ≤ (a':ℝ) ^ AGE_POW :=
    Real.rpow_le_rpow (Nat.cast_nonneg a) (by exact_mod_cast ha)
      (by norm_num [AGE_POW])
  exact mul_le_mul h3 h4 (Real.rpow_nonneg (Nat.cast_nonneg a) _)
    (div_nonneg (by norm_num) (le_of_lt h2))

/-! ## Steps of the fold in special positions (for C7) -/

lemma map_played_same (s : MapScoring) :
    map_played s s.map =
      { s with age := 1,
               penalty := s.penalty * ROUND_DISCOUNT + ROUND_PENALTY,
               cross_type_sibling_penalty :=
                 s.cross_type_sibling_penalty * CROSS_TYPE_ROUND_DISCOUNT } := by
  simp [map_played]

lemma map_played_other (s : MapScoring) (e : Map)
    (hid : e.id ≠ s.map.id) (hgid : s.map.gid ≠ e.gid) :
    map_played s e =
      { s with age := min 200 (s.age + 1),
               penalty := s.penalty * ROUND_DISCOUNT,
               cross_type_sibling_penalty :=
                 s.cross_type_sibling_penalty * CROSS_TYPE_ROUND_DISCOUNT } := by
  simp [map_played, MAX_AGE, hid, hgid]

lemma fold_untouched (x : Map) :
    ∀ (log : List Map), (∀ e ∈ log, e.id ≠ x.id ∧ e.gid ≠ x.gid) →
    ∀ (s : MapScoring), s.map = x → s.age = 200 →
      0 < s.penalty → s.penalty ≤ 1 →
      0 < s.cross_type_sibling_penalty → s.cross_type_sibling_penalty ≤ 1 →
      ((log.foldl map_played s).map = x ∧ (log.foldl map_played s).age = 200 ∧
        0 < (log.foldl map_played s).penalty ∧
        (log.foldl map_played s).penalty ≤ 1 ∧
        0 < (log.foldl map_played s).cross_type_sibling_penalty ∧
        (log.foldl map_played s).cross_type_sibling_penalty ≤ 1) := by
  intro log
  induction log with
  | nil => intro _ s h1 h2 h3 h4 h5 h6; exact ⟨h1, h2, h3, h4, h5, h6⟩
  | cons e rest ih =>
    intro hlog s h1 h2 h3 h4 h5 h6
    have he := hlog e (List.mem_cons_self e rest)
    have hid : e.id ≠ s.map.id := by rw [h1]; exact he.1
    have hgid : s.map.gid ≠ e.gid := by rw [h1]; exact Ne.symm he.2
    rw [List.foldl_cons, map_played_other s e hid hgid]
    apply ih (fun e' he' => hlog e' (List.mem_cons_of_mem e he'))
    · exact h1
    · simp [h2]
    · exact mul_pos h3 ROUND_DISCOUNT_pos
    · exact mul_le_one₀ h4 (le_of_lt ROUND_DISCOUNT_pos) ROUND_DISCOUNT_le_one
    · exact mul_pos h5 CROSS_DISCOUNT_pos
    · exact mul_le_one₀ h6 (le_of_lt CROSS_DISCOUNT_pos) CROSS_DISCOUNT_le_one

/-! ## Claim C7 -/

/-- C7 (counterexample): with `mapA` as the only eligible candidate, its
normalized weight is 1 both for the history `[mapA]` and for the empty
history, so the weight after the final entry is not strictly lower. -/
theorem c7_counterexample :
    ¬ (weightOf mapA [mapA] Mode.TD 16 [mapA] <
        weightOf mapA [] Mode.TD 16 [mapA]) := by
  have helig : eligible Mode.TD 16 [mapA] = [mapA] := by decide
  have h1 : weightOf mapA [mapA] Mode.TD 16 [mapA] = 1 := by
    rw [weightOf_eq, totalScore_eq, helig]
    simp [div_self (ne_of_gt (scoreOf_pos mapA [mapA]))]
  have h2 : weightOf mapA [] Mode.TD 16 [mapA] = 1 := by
    rw [weightOf_eq, totalScore_eq, helig]
    simp [div_self (ne_of_gt (scoreOf_pos mapA []))]
  rw [h1, h2]
  exact lt_irrefl 1

/-- C7 (amended): appending a final play of `x` to the history strictly
lowers `x`'s normalized weight for `x`'s own category, provided the earlier
history contains no entry of `x`'s group (nor `x` itself), the eligible
candidate set contains `x` and at least one other candidate, no other
eligible candidate shares `x`'s group, and catalog ids are distinct. -/
theorem c7_recency_amended (x : Map) (hpast : List Map) (mode : Mode)
    (players : ℕ) (all_maps : List Map)
    (hnodup : (all_maps.map Map.id).Nodup)
    (hmem : x ∈ all_maps) (hmode : x.mode = mode) (hcap : players ≤ x.players)
    (hother : ∃ y ∈ eligible mode players all_maps, y.id ≠ x.id)
    (hgroup : ∀ y ∈ eligible mode players all_maps, y.id ≠ x.id → y.gid ≠ x.gid)
    (hhist : ∀ e ∈ hpast, e.id ≠ x.id ∧ e.gid ≠ x.gid) :
    weightOf x (hpast ++ [x]) mode players all_maps <
      weightOf x hpast mode players all_maps := by
  classical
  obtain ⟨hxm, hxa, hxp0, hxp1, hxc0, hxc1⟩ :=
    fold_untouched x hpast hhist (initScoring x) rfl rfl
      (by norm_num [initScoring]) (by norm_num [initScoring])
      (by norm_num [initScoring]) (by norm_num [initScoring])
  set stx := hpast.foldl map_played (initScoring x) with hstx
  have hx_low : (250:ℝ) ≤ scoreOf x hpast := by
    rw [scoreOf_eq, ← hstx, hxa]
    have h0 : (0:ℝ) < ((stx.penalty + stx.cross_type_sibling_penalty : ℚ) : ℝ) := by
      exact_mod_cast add_pos hxp0 hxc0
    have h2 : ((stx.penalty + stx.cross_type_sibling_penalty : ℚ) : ℝ) ≤ 2 := by
      have : stx.penalty + stx.cross_type_sibling_penalty ≤ 2 := by linarith
      exact_mod_cast this
    exact final_lower_of_small _ h0 h2
  have hfold' : (hpast ++ [x]).foldl map_played (initScoring x) =
      map_played stx x := by
    rw [hstx, List.foldl_append]
    rfl
  have hself : map_played stx x =
      { stx with age := 1,
                 penalty := stx.penalty * ROUND_DISCOUNT + ROUND_PENALTY,
                 cross_type_sibling_penalty :=
                   stx.cross_type_sibling_penalty * CROSS_TYPE_ROUND_DISCOUNT } := by
    conv_lhs => rw [← hxm]
    exact map_played_same stx
  have hcbx' : (1000:ℝ) ≤ ((stx.penalty * ROUND_DISCOUNT + ROUND_PENALTY +
      stx.cross_type_sibling_penalty * CROSS_TYPE_ROUND_DISCOUNT : ℚ) : ℝ) := by
    have hq : (1000:ℚ) ≤ stx.penalty * ROUND_DISCOUNT + ROUND_PENALTY +
        stx.cross_type_sibling_penalty * CROSS_TYPE_ROUND_DISCOUNT := by
      have k1 := mul_pos hxp0 ROUND_DISCOUNT_pos
      have k2 := mul_pos hxc0 CROSS_DISCOUNT_pos
      have k3 : ROUND_PENALTY = (1000:ℚ) := rfl
      linarith
    exact_mod_cast hq
  have hx_high : scoreOf x (hpast ++ [x]) ≤ 1 := by
    rw [scoreOf_eq, hfold', hself]
    exact final_upper_of_big _ hcbx'
  have hy_mono : ∀ y ∈ eligible mode players all_maps, y.id ≠ x.id →
      scoreOf y hpast ≤ scoreOf y (hpast ++ [x]) := by
    intro y hy hyid
    have hygid : y.gid ≠ x.gid := hgroup y hy hyid
    have hym : (hpast.foldl map_played (initScoring y)).map = y :=
      foldl_map_played_map hpast (initScoring y)
    obtain ⟨hp0, hc0⟩ := foldl_map_played_pos hpast (initScoring y)
      (by norm_num [initScoring]) (by norm_num [initScoring])
    obtain ⟨ha1, ha2⟩ := foldl_age_bounds hpast (initScoring y)
      (by norm_num [initScoring, MAX_AGE]) (by norm_num [initScoring, MAX_AGE])
    set sty := hpast.foldl map_played (initScoring y) with hsty
    have hfold2 : (hpast ++ [x]).foldl map_played (initScoring y) =
        map_played sty x := by
      rw [hsty, List.foldl_append]
      rfl
    have hstep : map_played sty x =
        { sty with age := min 200 (sty.age + 1),
                   penalty := sty.penalty * ROUND_DISCOUNT,
                   cross_type_sibling_penalty :=
                     sty.cross_type_sibling_penalty * CROSS_TYPE_ROUND_DISCOUNT } :=
      map_played_other sty x (by rw [hym]; exact Ne.symm hyid)
        (by rw [hym]; exact hygid)
    have hcb0 : (0:ℚ) < sty.penalty * ROUND_DISCOUNT +
        sty.cross_type_sibling_penalty * CROSS_TYPE_ROUND_DISCOUNT :=
      add_pos (mul_pos hp0 ROUND_DISCOUNT_pos) (mul_pos hc0 CROSS_DISCOUNT_pos)
    have hcble : sty.penalty * ROUND_DISCOUNT +
        sty.cross_type_sibling_penalty * CROSS_TYPE_ROUND_DISCOUNT ≤
        sty.penalty + sty.cross_type_sibling_penalty := by
      have k1 : sty.penalty * ROUND_DISCOUNT ≤ sty.penalty :=
        mul_le_of_le_one_right (le_of_lt hp0) ROUND_DISCOUNT_le_one
      have k2 : sty.cross_type_sibling_penalty * CROSS_TYPE_ROUND_DISCOUNT ≤
          sty.cross_type_sibling_penalty :=
        mul_le_of_le_one_right (le_of_lt hc0) CROSS_DISCOUNT_le_one
      linarith
    rw [scoreOf_eq, scoreOf_eq, ← hsty, hfold2, hstep]
    exact final_mono_cb_age _ _ _ _ (by exact_mod_cast hcb0)
      (by exact_mod_cast hcble) (le_min ha2 (Nat.le_succ _))
  have hxelig : x ∈ eligible mode players all_maps :=
    List.mem_filter.mpr ⟨hmem, by simp [hmode, hcap]⟩
  obtain ⟨l1, l2, hsplit⟩ := List.append_of_mem hxelig
  have hnd_elig : ((eligible mode players all_maps).map Map.id).Nodup :=
    List.Nodup.sublist (List.Sublist.map Map.id (List.filter_sublist _)) hnodup
  rw [hsplit, List.map_append, List.map_cons] at hnd_elig
  obtain ⟨hnd1, hnd2, hdisj⟩ := List.nodup_append.mp hnd_elig
  have hxnotin2 : x.id ∉ l2.map Map.id := (List.nodup_cons.mp hnd2).1
  have hxnotin1 : x.id ∉ l1.map Map.id := fun hmem1 =>
    hdisj hmem1 (List.mem_cons_self _ _)
  have hni1 : ∀ y ∈ l1, y.id ≠ x.id := fun y hy h =>
    hxnotin1 (List.mem_map.mpr ⟨y, hy, h⟩)
  have hni2 : ∀ y ∈ l2, y.id ≠ x.id := fun y hy h =>
    hxnotin2 (List.mem_map.mpr ⟨y, hy, h⟩)
  have htotF : totalScore hpast mode players all_maps =
      scoreOf x hpast + ((l1.map (fun m => scoreOf m hpast)).sum +
        (l2.map (fun m => scoreOf m hpast)).sum) := by
    rw [totalScore_eq, hsplit]
    simp [List.map_append, List.sum_append]
    ring
  have htotG : totalScore (hpast ++ [x]) mode players all_maps =
      scoreOf x (hpast ++ [x]) +
        ((l1.map (fun m => scoreOf m (hpast ++ [x]))).sum +
          (l2.map (fun m => scoreOf m (hpast ++ [x]))).sum) := by
    rw [totalScore_eq, hsplit]
    simp [List.map_append, List.sum_append]
    ring
  have hmono1 : (l1.map (fun m => scoreOf m hpast)).sum ≤
      (l1.map (fun m => scoreOf m (hpast ++ [x]))).sum := by
    apply List.sum_le_sum
    intro y hy
    exact hy_mono y (by rw [hsplit]; exact List.mem_append_left _ hy) (hni1 y hy)
  have hmono2 : (l2.map (fun m => scoreOf m hpast)).sum ≤
      (l2.map (fun m => scoreOf m (hpast ++ [x]))).sum := by
    apply List.sum_le_sum
    intro y hy
    refine hy_mono y ?_ (hni2 y hy)
    rw [hsplit]
    exact List.mem_append_right _ (List.mem_cons_of_mem x hy)
  obtain ⟨y0, hy0elig, hy0id⟩ := hother
  have hy0in : y0 ∈ l1 ∨ y0 ∈ l2 := by
    rw [hsplit] at hy0elig
    rcases List.mem_append.mp hy0elig with h | h
    · exact Or.inl h
    · rcases List.mem_cons.mp h with h | h
      · exact absurd (congrArg Map.id h) hy0id
      · exact Or.inr h
  have hsum_nonneg : ∀ (l : List Map) (log : List Map),
      0 ≤ (l.map (fun m => scoreOf m log)).sum := by
    intro l log
    apply List.sum_nonneg
    intro z hz
    rcases List.mem_map.mp hz with ⟨m, _, rfl⟩
    exact le_of_lt (scoreOf_pos m log)
  have hsum_pos : ∀ (l : List Map) (log : List Map), l ≠ [] →
      0 < (l.map (fun m => scoreOf m log)).sum := by
    intro l log hne
    apply List.sum_pos
    · intro z hz
      rcases List.mem_map.mp hz with ⟨m, _, rfl⟩
      exact scoreOf_pos m log
    · simpa using hne
  have hRpos : 0 < (l1.map (fun m => scoreOf m (hpast ++ [x]))).sum +
      (l2.map (fun m => scoreOf m (hpast ++ [x]))).sum := by
    rcases hy0in with h | h
    · have := hsum_pos l1 (hpast ++ [x]) (List.ne_nil_of_mem h)
      have := hsum_nonneg l2 (hpast ++ [x])
      linarith
    · have := hsum_pos l2 (hpast ++ [x]) (List.ne_nil_of_mem h)
      have := hsum_nonneg l1 (hpast ++ [x])
      linarith
  have hRF0 : 0 ≤ (l1.map (fun m => scoreOf m hpast)).sum +
      (l2.map (fun m => scoreOf m hpast)).sum := by
    have := hsum_nonneg l1 hpast
    have := hsum_nonneg l2 hpast
    linarith
  have hSF : 0 < totalScore hpast mode players all_maps := by
    rw [htotF]
    have := scoreOf_pos x hpast
    linarith
  have hSG : 0 < totalScore (hpast ++ [x]) mode players all_maps := by
    rw [htotG]
    have := scoreOf_pos x (hpast ++ [x])
    linarith
  rw [weightOf_eq, weightOf_eq, div_lt_div_iff₀ hSG hSF, htotF, htotG]
  have hGxFx : scoreOf x (hpast ++ [x]) < scoreOf x hpast :=
    lt_of_le_of_lt hx_high (lt_of_lt_of_le (by norm_num) hx_low)
  have hRR : (l1.map (fun m => scoreOf m hpast)).sum +
      (l2.map (fun m => scoreOf m hpast)).sum ≤
      (l1.map (fun m => scoreOf m (hpast ++ [x]))).sum +
        (l2.map (fun m => scoreOf m (hpast ++ [x]))).sum :=
    add_le_add hmono1 hmono2
  have hGx0 : 0 < scoreOf x (hpast ++ [x]) := scoreOf_pos x _
  nlinarith [mul_le_mul_of_nonneg_left hRR (le_of_lt hGx0),
    mul_lt_mul_of_pos_right hGxFx hRpos]

/-- Witness for the amended C7: catalog `[mapA, mapB]` (distinct groups),
candidate `mapA`, empty earlier history, final entry `mapA`. -/
theorem c7_recency_amended_witness :
    weightOf mapA [mapA] Mode.TD 16 [mapA, mapB] <
      weightOf mapA [] Mode.TD 16 [mapA, mapB] := by
  have h := c7_recency_amended mapA [] Mode.TD 16 [mapA, mapB]
    (by decide) (by decide) (by decide) (by decide)
    (by decide) (by decide) (by intro e he; simp at he)
  simpa using h

end RMR
